import Mathlib

/-
Verification of the provenance-tracking string type `lstr` (src/ell/lstr.py).

An `lstr` is an immutable string carrying an optional score array (`logits`)
and a frozen set of origin markers (`_origin_trace`).  The definitions below
embed the class and its operation surface; the theorems settle the stated
properties of provenance propagation.

Strings are represented by their character lists; the score array is an opaque
payload that is never interpreted, only present or absent.
-/

set_option maxHeartbeats 1000000

/-- Characters of a Python string. -/
abbrev Str := List Char

/-- Character-list form of a Lean string literal. -/
def S (s : String) : Str := s.toList

/-- Opaque per-token score payload (a numpy array in the source); never interpreted. -/
abbrev Logits := List Int

/-- Embedding of the `lstr` class: the string content plus the `logits` array and the
`_origin_trace` frozen set. -/
structure lstr where
  content : Str
  logits : Option Logits
  origin_trace : Finset String
deriving DecidableEq

/-- A Python value in an operand position: an object of exact type `str`, an instance of
a strict subclass of `str` other than `lstr`, an `lstr`, an `int`, or `None`. -/
inductive PyVal where
  | vstr (s : Str)
  | vstrSub (s : Str)
  | vlstr (a : lstr)
  | vint (n : Int)
  | vnone
deriving DecidableEq

/-- `isinstance(v, str)`: the textual value of any `str` instance, `none` otherwise. -/
def pyStrLike? : PyVal → Option Str
  | .vstr s => some s
  | .vstrSub s => some s
  | .vlstr a => some a.content
  | _ => none

/-- Python `str(v)`. -/
def pyStr : PyVal → Str
  | .vstr s => s
  | .vstrSub s => s
  | .vlstr a => a.content
  | .vint n => (toString n).toList
  | .vnone => S "None"

/-- The origins contributed by a value: its origin trace when it is an `lstr`,
nothing otherwise. -/
def lstrOrigins : PyVal → Finset String
  | .vlstr a => a.origin_trace
  | _ => ∅

/-- Whether a value is wrapped in the provenance type. -/
def PyVal.isWrapped : PyVal → Bool
  | .vlstr _ => true
  | _ => false

/-- Result of a binary dunder method: a value, or the `NotImplemented` sentinel that
defers to the other operand's reflected handling. -/
inductive OpResult (α : Type) where
  | ok (a : α)
  | notImplemented
deriving DecidableEq

/-- `lstr.__add__`: an operand of exact type `str` concatenates and keeps the receiver's
trace; an `lstr` operand concatenates and unions the traces; anything else gives
`NotImplemented`. -/
def lstr.add (self : lstr) (other : PyVal) : OpResult lstr :=
  match other with
  | .vstr s => .ok ⟨self.content ++ s, none, self.origin_trace⟩
  | .vlstr b => .ok ⟨self.content ++ b.content, none, self.origin_trace ∪ b.origin_trace⟩
  | _ => .notImplemented

/-- n-fold repeated concatenation. -/
def repFold : Nat → Str → Str
  | 0, _ => []
  | k + 1, s => s ++ repFold k s

/-- Content of Python `str.__mul__`: repetition, a non-positive count giving the empty
string. -/
def pyRepeat (s : Str) (n : Int) : Str := repFold n.toNat s

/-- `lstr.__mul__`: an index-supporting operand (an `int` here) repeats the content,
drops the logits and keeps the trace; any other operand gives `NotImplemented`. -/
def lstr.mul (self : lstr) (other : PyVal) : OpResult lstr :=
  match other with
  | .vint n => .ok ⟨pyRepeat self.content n, none, self.origin_trace⟩
  | _ => .notImplemented

/-- `lstr.__rmul__` delegates to `__mul__`. -/
def lstr.rmul (self : lstr) (other : PyVal) : OpResult lstr := self.mul other

/-- An index or a step-one slice key. -/
inductive PyKey where
  | idx (i : Int)
  | slice (lo hi : Option Int)
deriving DecidableEq

/-- Clamp one bound of a step-one slice the way CPython does. -/
def sliceBound (n : Nat) (dflt : Nat) : Option Int → Nat
  | none => dflt
  | some j => if j < 0 then n - min n (-j).toNat else min j.toNat n

/-- Python `str.__getitem__` on the underlying string: a one-character string for a valid
index (negative indices count from the end), `none` for an out-of-range index, clamped
extraction for a slice. -/
def pyGetitem (s : Str) : PyKey → Option Str
  | .idx i =>
    let j := if i < 0 then i + s.length else i
    if j < 0 then none else (s[j.toNat]?).map (fun c => [c])
  | .slice a b =>
    some ((s.take (sliceBound s.length s.length b)).drop (sliceBound s.length 0 a))

/-- `lstr.__getitem__`: index with the plain string, always drop the logits, keep the
trace unchanged. -/
def lstr.getitem (self : lstr) (k : PyKey) : Option lstr :=
  (pyGetitem self.content k).map (fun r => ⟨r, none, self.origin_trace⟩)

/-- The accumulation loops of the source (`__mod__`, `__getattribute__`, `join`): fold
over the values, unioning in the trace of every `lstr` encountered. -/
def accumOrigins (init : Finset String) (vals : List PyVal) : Finset String :=
  vals.foldl
    (fun acc v => match v with | .vlstr b => acc ∪ b.origin_trace | _ => acc) init

/-- The same accumulation over keyword-argument values. -/
def accumKwOrigins (init : Finset String) (kwargs : List (String × PyVal)) :
    Finset String :=
  kwargs.foldl
    (fun acc kv => match kv.2 with | .vlstr b => acc ∪ b.origin_trace | _ => acc) init

/-- The union of the origins of every provenance-carrying value in a list, as the
specification phrases it. -/
def specArgsOrigins (vals : List PyVal) : Finset String :=
  vals.foldr (fun v acc => lstrOrigins v ∪ acc) ∅

/-- The union of the origins of every provenance-carrying keyword-argument value. -/
def specKwOrigins (kwargs : List (String × PyVal)) : Finset String :=
  kwargs.foldr (fun kv acc => lstrOrigins kv.2 ∪ acc) ∅

/-- CPython %-template substitution restricted to the `%s` conversion and the `%%`
escape; any other conversion, a dangling `%`, surplus arguments or missing arguments
are formatting errors (`none`). -/
def formatS : Str → List Str → Option Str
  | [], [] => some []
  | [], _ :: _ => none
  | '%' :: '%' :: rest, args => (formatS rest args).map (fun r => '%' :: r)
  | '%' :: 's' :: rest, a :: args => (formatS rest args).map (fun r => a ++ r)
  | '%' :: 's' :: _, [] => none
  | '%' :: _, _ => none
  | c :: rest, args => (formatS rest args).map (fun r => c :: r)

/-- The right operand of `%`: a single value, or a tuple of values. -/
inductive ModArg where
  | single (v : PyVal)
  | tup (vs : List PyVal)

/-- The stringified substitution arguments of a `%` operand. -/
def modArgStrs : ModArg → List Str
  | .single v => [pyStr v]
  | .tup vs => vs.map pyStr

/-- The substitution arguments of a `%` operand as a list of values. -/
def modArgList : ModArg → List PyVal
  | .single v => [v]
  | .tup vs => vs

/-- `lstr.__mod__`: format with the stringified operands; a tuple operand contributes the
traces of its `lstr` elements, a single `lstr` operand contributes its trace. -/
def lstr.mod (self : lstr) (other : ModArg) : Option lstr :=
  match other with
  | .tup vs =>
    (formatS self.content (vs.map pyStr)).map (fun c =>
      ⟨c, none, accumOrigins self.origin_trace vs⟩)
  | .single v =>
    (formatS self.content [pyStr v]).map (fun c =>
      ⟨c, none,
        match v with
        | .vlstr b => self.origin_trace ∪ b.origin_trace
        | _ => self.origin_trace⟩)

/-- Result of the underlying `str` callable inside `__getattribute__`'s wrapper: text,
or a non-text value such as a bool or an int. -/
inductive PyRet where
  | rstr (s : Str)
  | rbool (b : Bool)
  | rint (n : Int)
deriving DecidableEq

/-- Whether an underlying result is text. -/
def PyRet.isText : PyRet → Bool
  | .rstr _ => true
  | _ => false

/-- Result of invoking a wrapped inherited method: a re-wrapped `lstr` when the
underlying result was text, the raw result otherwise. -/
inductive CallResult where
  | text (a : lstr)
  | raw (r : PyRet)
deriving DecidableEq

/-- The `wrapped` closure of `lstr.__getattribute__` for a callable attribute not defined
in `lstr` itself: run the underlying `str` behavior on the receiver's content; if the
result is a string, wrap it with no logits and with the receiver's trace unioned with
the traces of the `lstr` positional and keyword arguments; otherwise return it
unchanged. -/
def lstr.wrapped_call (self : lstr)
    (method : Str → List PyVal → List (String × PyVal) → PyRet)
    (args : List PyVal) (kwargs : List (String × PyVal)) : CallResult :=
  match method self.content args kwargs with
  | .rstr s => .text ⟨s, none, accumKwOrigins (accumOrigins self.origin_trace args) kwargs⟩
  | r => .raw r

/-- Upper-casing of the underlying characters, the content of `str.upper`. -/
def strUpper (s : Str) : Str := s.map Char.toUpper

/-- `a.upper()` reaches the generic wrapper, `upper` not being defined in `lstr`. -/
def lstr.upper (self : lstr) : CallResult :=
  self.wrapped_call (fun c _ _ => .rstr (strUpper c)) [] []

/-- Content of Python `sep.join(parts)`. -/
def joinSep (sep : Str) : List Str → Str
  | [] => []
  | [x] => x
  | x :: xs => x ++ sep ++ joinSep sep xs

/-- `lstr.join`: stringify every element, join with the receiver as separator, drop the
logits, and union the receiver's trace with the traces of the `lstr` elements. -/
def lstr.join (self : lstr) (iterable : List PyVal) : lstr :=
  ⟨joinSep self.content (iterable.map pyStr), none,
    accumOrigins self.origin_trace iterable⟩

/-- Fuel-bounded scan of Python `str.split` with an explicit separator: at each position,
if the separator matches and splits remain, cut there; otherwise keep the character in
the current fragment.  Fuel at least the length of the string makes the scan total. -/
def splitAux (sep : Str) : Nat → Int → Str → List Str
  | _, _, [] => [[]]
  | 0, _, s => [s]
  | fuel + 1, m, c :: rest =>
    if sep ≠ [] ∧ m ≠ 0 ∧ sep.isPrefixOf (c :: rest) then
      [] :: splitAux sep fuel (m - 1) (List.drop sep.length (c :: rest))
    else
      match splitAux sep fuel m rest with
      | [] => [[c]]
      | h :: t => (c :: h) :: t

/-- Content of Python `str.split` with an explicit non-empty separator and a maximum
number of splits (a negative bound meaning unlimited). -/
def pySplitSep (sep : Str) (maxsplit : Int) (s : Str) : List Str :=
  splitAux sep s.length maxsplit s

/-- The trace that `_split_helper` attaches to every fragment: the receiver's trace,
unioned with the separator's when the separator is an `lstr`. -/
def splitOrigins (self : lstr) (sep : PyVal) : Finset String :=
  match sep with
  | .vlstr b => self.origin_trace ∪ b.origin_trace
  | _ => self.origin_trace

/-- `lstr.split` with an explicit separator: `none` models the `ValueError` that
`str.split` raises on an empty separator (and the `TypeError` on a non-string one);
otherwise every fragment carries the `_split_helper` trace and no logits. -/
def lstr.split (self : lstr) (sep : PyVal) (maxsplit : Int) : Option (List lstr) :=
  match pyStrLike? sep with
  | none => none
  | some sepStr =>
    if sepStr = [] then none
    else
      some ((pySplitSep sepStr maxsplit self.content).map
        (fun p => ⟨p, none, splitOrigins self sep⟩))

/-- Index of the leftmost occurrence of `sep`. -/
def findSub (sep : Str) : Str → Option Nat
  | [] => if sep = [] then some 0 else none
  | c :: rest =>
    if sep.isPrefixOf (c :: rest) then some 0
    else (findSub sep rest).map (fun i => i + 1)

/-- Index of the rightmost occurrence of `sep`. -/
def findSubLast (sep : Str) : Str → Option Nat
  | [] => if sep = [] then some 0 else none
  | c :: rest =>
    match findSubLast sep rest with
    | some i => some (i + 1)
    | none => if sep.isPrefixOf (c :: rest) then some 0 else none

/-- Whether `sep` occurs anywhere in `s`. -/
def occursIn (sep s : Str) : Bool := (findSub sep s).isSome

/-- Content of Python `str.partition`; `none` models the empty-separator `ValueError`. -/
def pyPartition (s sep : Str) : Option (Str × Str × Str) :=
  if sep = [] then none
  else
    match findSub sep s with
    | some i => some (s.take i, sep, s.drop (i + sep.length))
    | none => some (s, [], [])

/-- Content of Python `str.rpartition`; `none` models the empty-separator
`ValueError`. -/
def pyRPartition (s sep : Str) : Option (Str × Str × Str) :=
  if sep = [] then none
  else
    match findSubLast sep s with
    | some i => some (s.take i, sep, s.drop (i + sep.length))
    | none => some ([], [], s)

/-- The trace that `_partition_helper` attaches to all three parts: the receiver's trace,
unioned with the separator's when the separator is an `lstr`. -/
def partitionOrigins (self : lstr) (sep : PyVal) : Finset String :=
  match sep with
  | .vlstr b => self.origin_trace ∪ b.origin_trace
  | _ => self.origin_trace

/-- `lstr.partition` via `_partition_helper`. -/
def lstr.partition (self : lstr) (sep : PyVal) : Option (lstr × lstr × lstr) :=
  match pyStrLike? sep with
  | none => none
  | some sepStr =>
    (pyPartition self.content sepStr).map (fun t =>
      (⟨t.1, none, partitionOrigins self sep⟩,
       ⟨t.2.1, none, partitionOrigins self sep⟩,
       ⟨t.2.2, none, partitionOrigins self sep⟩))

/-- `lstr.rpartition` via `_partition_helper`. -/
def lstr.rpartition (self : lstr) (sep : PyVal) : Option (lstr × lstr × lstr) :=
  match pyStrLike? sep with
  | none => none
  | some sepStr =>
    (pyRPartition self.content sepStr).map (fun t =>
      (⟨t.1, none, partitionOrigins self sep⟩,
       ⟨t.2.1, none, partitionOrigins self sep⟩,
       ⟨t.2.2, none, partitionOrigins self sep⟩))

/-- Python-level dispatch of `x + y` for the value shapes modelled here.  `str.__add__`
on a plain or subclassed `str` left operand accepts any `str` instance — an `lstr`
included — and returns a plain `str`; `lstr` defines no `__radd__`, so nothing re-wraps
that result.  `none` models an overall `TypeError`. -/
def pyAdd (x y : PyVal) : Option PyVal :=
  match x with
  | .vstr s => (pyStrLike? y).map (fun t => .vstr (s ++ t))
  | .vstrSub s => (pyStrLike? y).map (fun t => .vstr (s ++ t))
  | .vlstr a =>
    match a.add y with
    | .ok r => some (.vlstr r)
    | .notImplemented => none
  | _ => none

/-- Claim C1: concatenating two provenance strings concatenates the contents, leaves the
scores absent regardless of the operands' scores, and unions the origin sets; with a
plain string on the right the origins are the left operand's alone. -/
theorem claim_C1_add (a b : lstr) (s : Str) :
    lstr.add a (.vlstr b) =
      .ok ⟨a.content ++ b.content, none, a.origin_trace ∪ b.origin_trace⟩ ∧
    lstr.add a (.vstr s) = .ok ⟨a.content ++ s, none, a.origin_trace⟩ :=
  ⟨rfl, rfl⟩

theorem accumOrigins_eq (vals : List PyVal) :
    ∀ init : Finset String, accumOrigins init vals = init ∪ specArgsOrigins vals := by
  induction vals with
  | nil => intro init; simp [accumOrigins, specArgsOrigins]
  | cons v vs ih =>
    intro init
    have h1 : accumOrigins init (v :: vs) = accumOrigins (init ∪ lstrOrigins v) vs := by
      cases v <;> simp [accumOrigins, lstrOrigins]
    rw [h1, ih]
    simp [specArgsOrigins, Finset.union_assoc]

theorem accumKwOrigins_eq (kwargs : List (String × PyVal)) :
    ∀ init : Finset String, accumKwOrigins init kwargs = init ∪ specKwOrigins kwargs := by
  induction kwargs with
  | nil => intro init; simp [accumKwOrigins, specKwOrigins]
  | cons kv ks ih =>
    intro init
    have h1 : accumKwOrigins init (kv :: ks) =
        accumKwOrigins (init ∪ lstrOrigins kv.2) ks := by
      obtain ⟨k, v⟩ := kv
      cases v <;> simp [accumKwOrigins, lstrOrigins]
    rw [h1, ih]
    simp [specKwOrigins, Finset.union_assoc]

/-- Claim C2: a wrapped inherited method delegates to the plain-string behavior; a text
result is re-wrapped with absent scores and with the receiver's origins unioned with the
origins of every provenance-carrying positional or keyword argument, while a non-text
result is returned unchanged; in particular `upper` on content "Hello" with origins
{"m1"} gives content "HELLO", origins {"m1"}, and no scores. -/
theorem claim_C2_generic_wrapping :
    (∀ (self : lstr) (method : Str → List PyVal → List (String × PyVal) → PyRet)
        (args : List PyVal) (kwargs : List (String × PyVal)) (s : Str),
      method self.content args kwargs = .rstr s →
      lstr.wrapped_call self method args kwargs =
        .text ⟨s, none,
          self.origin_trace ∪ specArgsOrigins args ∪ specKwOrigins kwargs⟩) ∧
    (∀ (self : lstr) (method : Str → List PyVal → List (String × PyVal) → PyRet)
        (args : List PyVal) (kwargs : List (String × PyVal)),
      (method self.content args kwargs).isText = false →
      lstr.wrapped_call self method args kwargs =
        .raw (method self.content args kwargs)) ∧
    lstr.upper ⟨S "Hello", none, {"m1"}⟩ = .text ⟨S "HELLO", none, {"m1"}⟩ := by
  refine ⟨?_, ?_, by decide⟩
  · intro self method args kwargs s h
    unfold lstr.wrapped_call
    rw [h, accumKwOrigins_eq, accumOrigins_eq]
  · intro self method args kwargs h
    unfold lstr.wrapped_call
    cases hm : method self.content args kwargs with
    | rstr s => rw [hm] at h; simp [PyRet.isText] at h
    | rbool b => rfl
    | rint n => rfl

/-- Witness for claim C2 at a concrete receiver, method and argument list. -/
theorem claim_C2_generic_wrapping_witness :
    lstr.wrapped_call ⟨S "hi", some [1], {"a"}⟩ (fun c _ _ => .rstr (strUpper c))
      [.vlstr ⟨S "x", none, {"b"}⟩] [] =
    .text ⟨S "HI", none,
      (⟨S "hi", some [1], {"a"}⟩ : lstr).origin_trace ∪
        specArgsOrigins [.vlstr ⟨S "x", none, {"b"}⟩] ∪ specKwOrigins []⟩ :=
  claim_C2_generic_wrapping.1 ⟨S "hi", some [1], {"a"}⟩ _ _ _ (S "HI") (by decide)

/-- Claim C3: indexing or slicing keeps the plain-string result as content, drops the
scores unconditionally (even when the receiver carried scores, and even for a
content-preserving full-range slice), and keeps the origins unchanged. -/
theorem claim_C3_getitem (a : lstr) (k : PyKey) (r : lstr)
    (h : lstr.getitem a k = some r) :
    r.logits = none ∧ r.origin_trace = a.origin_trace ∧
    pyGetitem a.content k = some r.content ∧
    lstr.getitem a (.slice none none) = some ⟨a.content, none, a.origin_trace⟩ := by
  have hfull : lstr.getitem a (.slice none none) =
      some ⟨a.content, none, a.origin_trace⟩ := by
    unfold lstr.getitem
    simp [pyGetitem, sliceBound]
  unfold lstr.getitem at h
  cases hg : pyGetitem a.content k with
  | none => rw [hg] at h; simp at h
  | some c =>
    rw [hg] at h
    simp only [Option.map_some', Option.some.injEq] at h
    subst h
    exact ⟨rfl, rfl, rfl, hfull⟩

/-- Witness for claim C3 at a concrete instance carrying scores and a negative index. -/
theorem claim_C3_getitem_witness :
    (⟨S "b", none, {"m"}⟩ : lstr).logits = none ∧
    (⟨S "b", none, {"m"}⟩ : lstr).origin_trace =
      (⟨S "ab", some [1, 2], {"m"}⟩ : lstr).origin_trace ∧
    pyGetitem (⟨S "ab", some [1, 2], {"m"}⟩ : lstr).content (.idx (-1)) =
      some (⟨S "b", none, {"m"}⟩ : lstr).content ∧
    lstr.getitem ⟨S "ab", some [1, 2], {"m"}⟩ (.slice none none) =
      some ⟨(⟨S "ab", some [1, 2], {"m"}⟩ : lstr).content, none,
        (⟨S "ab", some [1, 2], {"m"}⟩ : lstr).origin_trace⟩ :=
  claim_C3_getitem ⟨S "ab", some [1, 2], {"m"}⟩ (.idx (-1)) ⟨S "b", none, {"m"}⟩
    (by decide)

/-- Claim C4 counterexample: concatenation with a plain string on the left dispatches to
`str.__add__`, which accepts the `lstr` right operand (it is a `str` instance) and
returns a bare plain string, so this textual result does lose its provenance wrapper. -/
theorem claim_C4_counterexample :
    pyAdd (.vstr (S "x")) (.vlstr ⟨S "y", none, {"m"}⟩) = some (.vstr (S "xy")) ∧
    PyVal.isWrapped (.vstr (S "xy")) = false := by
  decide

/-- Claim C4 (amended): operations dispatched on a provenance receiver never return a
bare string — addition on an `lstr` left operand wraps its result, and the generic
method wrapper wraps every textual result — but concatenation with a plain string on
the left is handled by the plain string's own concatenation and returns a bare plain
string. -/
theorem claim_C4_wrapping :
    (∀ (a : lstr) (y r : PyVal), pyAdd (.vlstr a) y = some r → r.isWrapped = true) ∧
    (∀ (self : lstr) (method : Str → List PyVal → List (String × PyVal) → PyRet)
        (args : List PyVal) (kwargs : List (String × PyVal)) (s : Str),
      method self.content args kwargs = .rstr s →
      ∃ b : lstr, lstr.wrapped_call self method args kwargs = .text b) ∧
    (∀ (x : Str) (b : lstr), pyAdd (.vstr x) (.vlstr b) = some (.vstr (x ++ b.content))) := by
  refine ⟨?_, ?_, fun x b => rfl⟩
  · intro a y r h
    cases y <;> simp [pyAdd, lstr.add] at h <;> subst h <;> rfl
  · intro self method args kwargs s h
    refine ⟨⟨s, none, accumKwOrigins (accumOrigins self.origin_trace args) kwargs⟩, ?_⟩
    unfold lstr.wrapped_call
    rw [h]

/-- Witness for claim C4 (amended) at a concrete addition on an `lstr` left operand. -/
theorem claim_C4_wrapping_witness :
    PyVal.isWrapped (.vlstr ⟨S "yz", none, {"m"}⟩) = true :=
  claim_C4_wrapping.1 ⟨S "y", none, {"m"}⟩ (.vstr (S "z"))
    (.vlstr ⟨S "yz", none, {"m"}⟩) (by decide)

/-- Claim C6: repetition by a non-negative integer repeats the content n-fold, leaves
the scores absent, keeps the origins unchanged, and the reflected form agrees with the
direct form. -/
theorem claim_C6_mul (a : lstr) (n : Int) (_h : 0 ≤ n) :
    lstr.mul a (.vint n) = .ok ⟨repFold n.toNat a.content, none, a.origin_trace⟩ ∧
    lstr.rmul a (.vint n) = lstr.mul a (.vint n) :=
  ⟨rfl, rfl⟩

/-- Witness for claim C6 at content "ab" and repeat count 2. -/
theorem claim_C6_mul_witness :
    lstr.mul ⟨S "ab", none, {"m"}⟩ (.vint 2) =
      .ok ⟨repFold (Int.toNat 2) (S "ab"), none,
        (⟨S "ab", none, {"m"}⟩ : lstr).origin_trace⟩ ∧
    lstr.rmul ⟨S "ab", none, {"m"}⟩ (.vint 2) =
      lstr.mul ⟨S "ab", none, {"m"}⟩ (.vint 2) :=
  claim_C6_mul ⟨S "ab", none, {"m"}⟩ 2 (by decide)

theorem joinSep_pair (sep x : Str) (L : List Str) (h : L ≠ []) :
    joinSep sep (x :: L) = x ++ sep ++ joinSep sep L := by
  cases L with
  | nil => exact absurd rfl h
  | cons y t => rfl

theorem splitAux_ne_nil (sep : Str) (fuel : Nat) (m : Int) (s : Str) :
    splitAux sep fuel m s ≠ [] := by
  cases fuel with
  | zero => cases s <;> simp [splitAux]
  | succ fuel =>
    cases s with
    | nil => simp [splitAux]
    | cons c rest =>
      rw [splitAux]
      split
      · simp
      · split <;> simp

theorem joinSep_splitAux (sep : Str) :
    ∀ (fuel : Nat) (m : Int) (s : Str), s.length ≤ fuel →
      joinSep sep (splitAux sep fuel m s) = s := by
  intro fuel
  induction fuel with
  | zero =>
    intro m s hs
    have h0 : s = [] := List.length_eq_zero.mp (Nat.le_zero.mp hs)
    subst h0
    rfl
  | succ fuel ih =>
    intro m s hs
    cases s with
    | nil => rfl
    | cons c rest =>
      rw [splitAux]
      by_cases hc : sep ≠ [] ∧ m ≠ 0 ∧ sep.isPrefixOf (c :: rest)
      · rw [if_pos hc]
        obtain ⟨hne, -, hpre⟩ := hc
        obtain ⟨t, ht⟩ := List.isPrefixOf_iff_prefix.mp hpre
        have hdrop : List.drop sep.length (c :: rest) = t := by
          rw [← ht]; exact List.drop_left sep t
        have hsep1 : 1 ≤ sep.length := by
          cases sep with
          | nil => exact absurd rfl hne
          | cons a l => simp
        have hlen : (List.drop sep.length (c :: rest)).length ≤ fuel := by
          rw [List.length_drop]
          simp only [List.length_cons] at hs ⊢
          omega
        have hL := ih (m - 1) _ hlen
        have hnil := splitAux_ne_nil sep fuel (m - 1) (List.drop sep.length (c :: rest))
        rw [joinSep_pair sep [] _ hnil, hL, hdrop, List.nil_append]
        exact ht
      · rw [if_neg hc]
        have hlen : rest.length ≤ fuel := by
          simp only [List.length_cons] at hs; omega
        have hir := ih m rest hlen
        have hnil := splitAux_ne_nil sep fuel m rest
        cases hr : splitAux sep fuel m rest with
        | nil => exact absurd hr hnil
        | cons hfrag t =>
          rw [hr] at hir
          show joinSep sep ((c :: hfrag) :: t) = c :: rest
          cases t with
          | nil =>
            simp only [joinSep] at hir ⊢
            rw [hir]
          | cons y t2 =>
            rw [joinSep_pair sep hfrag (y :: t2) (by simp)] at hir
            rw [joinSep_pair sep (c :: hfrag) (y :: t2) (by simp)]
            rw [List.cons_append, List.cons_append, hir]

theorem joinSep_pySplitSep (sep : Str) (m : Int) (s : Str) :
    joinSep sep (pySplitSep sep m s) = s :=
  joinSep_splitAux sep s.length m s (Nat.le_refl _)

theorem map_wrap_pyStr (L : List Str) (o : Finset String) :
    ((L.map (fun p => (⟨p, none, o⟩ : lstr))).map PyVal.vlstr).map pyStr = L := by
  induction L with
  | nil => rfl
  | cons h t ih =>
    simp only [List.map_cons]
    exact congrArg _ ih

/-- Claim C5 counterexample: for the empty plain separator the underlying `str.split`
raises `ValueError`, so no fragments are produced at all. -/
theorem claim_C5_counterexample :
    lstr.split ⟨S "ab", none, {"x"}⟩ (.vstr (S "")) (-1) = none := by decide

/-- Claim C5 (amended): for every nonempty plain separator, `split` yields fragments
that all carry origin set exactly {x} and no scores, and joining the fragments with the
separator reproduces the receiver's content exactly; the empty separator inherits the
underlying string operation's empty-separator error instead of yielding fragments. -/
theorem claim_C5_split_join (a : lstr) (x : String) (sep : Str)
    (hx : a.origin_trace = {x}) (hsep : sep ≠ []) :
    ∃ parts, lstr.split a (.vstr sep) (-1) = some parts ∧
      (∀ p ∈ parts, p.origin_trace = {x} ∧ p.logits = none) ∧
      (lstr.join ⟨sep, none, ∅⟩ (parts.map PyVal.vlstr)).content = a.content := by
  refine ⟨(pySplitSep sep (-1) a.content).map
    (fun p => ⟨p, none, splitOrigins a (.vstr sep)⟩), ?_, ?_, ?_⟩
  · unfold lstr.split
    simp [pyStrLike?, hsep]
  · intro p hp
    simp only [List.mem_map] at hp
    obtain ⟨q, -, hq⟩ := hp
    subst hq
    exact ⟨by simp [splitOrigins, hx], rfl⟩
  · show joinSep sep ((((pySplitSep sep (-1) a.content).map
        (fun p => (⟨p, none, splitOrigins a (.vstr sep)⟩ : lstr))).map
          PyVal.vlstr).map pyStr) = a.content
    rw [map_wrap_pyStr]
    exact joinSep_pySplitSep sep (-1) a.content

/-- Witness for claim C5 (amended) at content "a,b" and separator ",". -/
theorem claim_C5_split_join_witness :
    ∃ parts, lstr.split ⟨S "a,b", none, {"x"}⟩ (.vstr (S ",")) (-1) = some parts ∧
      (∀ p ∈ parts, p.origin_trace = {"x"} ∧ p.logits = none) ∧
      (lstr.join ⟨S ",", none, ∅⟩ (parts.map PyVal.vlstr)).content =
        (⟨S "a,b", none, {"x"}⟩ : lstr).content :=
  claim_C5_split_join ⟨S "a,b", none, {"x"}⟩ "x" (S ",") (by decide) (by decide)

/-- Claim C9: an addition whose right operand is neither a plain string nor a provenance
instance, and a repetition whose operand is not integer-like (directly or reflected),
return the `NotImplemented` sentinel so the other operand's reflected handling may run,
rather than raising. -/
theorem claim_C9_not_supported (a b : lstr) (n : Int) (s : Str) :
    lstr.add a (.vint n) = .notImplemented ∧
    lstr.add a .vnone = .notImplemented ∧
    lstr.mul a (.vstr s) = .notImplemented ∧
    lstr.mul a (.vstrSub s) = .notImplemented ∧
    lstr.mul a (.vlstr b) = .notImplemented ∧
    lstr.mul a .vnone = .notImplemented ∧
    lstr.rmul a (.vstr s) = .notImplemented :=
  ⟨rfl, rfl, rfl, rfl, rfl, rfl, rfl⟩

/-- Claim C10: the right-operand check of `__add__` requires exact type `str` or an
`lstr`; an instance of any other strict subclass of `str` gets the `NotImplemented`
sentinel even though it is a valid string value. -/
theorem claim_C10_str_subclass (a : lstr) (s : Str) :
    lstr.add a (.vstrSub s) = .notImplemented ∧ pyStrLike? (.vstrSub s) = some s :=
  ⟨rfl, rfl⟩

theorem findSub_some (sep : Str) :
    ∀ (s : Str) (i : Nat), findSub sep s = some i →
      ∃ u v, s = u ++ sep ++ v ∧ u.length = i := by
  intro s
  induction s with
  | nil =>
    intro i h
    rw [findSub] at h
    by_cases hsep : sep = []
    · rw [if_pos hsep] at h
      refine ⟨[], [], by simp [hsep], ?_⟩
      simpa using (Option.some.injEq 0 i).mp h
    · rw [if_neg hsep] at h
      exact absurd h (by simp)
  | cons c rest ih =>
    intro i h
    rw [findSub] at h
    by_cases hp : sep.isPrefixOf (c :: rest)
    · rw [if_pos hp] at h
      obtain ⟨t, ht⟩ := List.isPrefixOf_iff_prefix.mp hp
      refine ⟨[], t, by simp [← ht], ?_⟩
      simpa using (Option.some.injEq 0 i).mp h
    · rw [if_neg hp] at h
      cases hr : findSub sep rest with
      | none => rw [hr] at h; exact absurd h (by simp)
      | some j =>
        rw [hr] at h
        simp only [Option.map_some', Option.some.injEq] at h
        obtain ⟨u, v, huv, hlen⟩ := ih j hr
        exact ⟨c :: u, v, by simp [huv], by simp [hlen, h]⟩

theorem findSubLast_some (sep : Str) :
    ∀ (s : Str) (i : Nat), findSubLast sep s = some i →
      ∃ u v, s = u ++ sep ++ v ∧ u.length = i := by
  intro s
  induction s with
  | nil =>
    intro i h
    rw [findSubLast] at h
    by_cases hsep : sep = []
    · rw [if_pos hsep] at h
      refine ⟨[], [], by simp [hsep], ?_⟩
      simpa using (Option.some.injEq 0 i).mp h
    · rw [if_neg hsep] at h
      exact absurd h (by simp)
  | cons c rest ih =>
    intro i h
    rw [findSubLast] at h
    cases hr : findSubLast sep rest with
    | some j =>
      rw [hr] at h
      simp only [Option.some.injEq] at h
      obtain ⟨u, v, huv, hlen⟩ := ih j hr
      exact ⟨c :: u, v, by simp [huv], by simp [hlen, h]⟩
    | none =>
      rw [hr] at h
      by_cases hp : sep.isPrefixOf (c :: rest)
      · rw [if_pos hp] at h
        obtain ⟨t, ht⟩ := List.isPrefixOf_iff_prefix.mp hp
        refine ⟨[], t, by simp [← ht], ?_⟩
        simpa using (Option.some.injEq 0 i).mp h
      · rw [if_neg hp] at h
        exact absurd h (by simp)

theorem findSub_none_iff (sep : Str) :
    ∀ s : Str, (findSub sep s = none ↔ findSubLast sep s = none) := by
  intro s
  induction s with
  | nil => rw [findSub, findSubLast]
  | cons c rest ih =>
    rw [findSub, findSubLast]
    by_cases hp : sep.isPrefixOf (c :: rest)
    · rw [if_pos hp]
      constructor
      · intro h; exact absurd h (by simp)
      · intro h
        cases hr : findSubLast sep rest with
        | some j => rw [hr] at h; exact absurd h (by simp)
        | none => rw [hr, if_pos hp] at h; exact absurd h (by simp)
    · rw [if_neg hp]
      constructor
      · intro h
        simp only [Option.map_eq_none'] at h
        rw [ih.mp h, if_neg hp]
      · intro h
        cases hr : findSubLast sep rest with
        | some j => rw [hr] at h; exact absurd h (by simp)
        | none => simp only [Option.map_eq_none']; exact ih.mpr hr

theorem partitionOrigins_eq (a : lstr) (sep : PyVal) :
    partitionOrigins a sep = a.origin_trace ∪ lstrOrigins sep := by
  cases sep <;> simp [partitionOrigins, lstrOrigins]

/-- Claim C7 counterexample: for the empty separator the underlying `str.partition`
raises `ValueError`, so no triple is returned at all. -/
theorem claim_C7_counterexample :
    lstr.partition ⟨S "Hello", none, {"m"}⟩ (.vstr (S "")) = none := by decide

/-- Claim C7 (amended): for every nonempty separator, plain or provenance-carrying,
partition and rpartition return a triple (text-before, separator-as-found, text-after)
whose parts concatenate back to the content; when the separator occurs, the middle part
is the separator; when it does not occur, the triples are (full-content, empty, empty)
and (empty, empty, full-content) respectively; all six parts carry identical origins —
the receiver's unioned with the separator's when it carries provenance — and absent
scores.  The empty separator inherits the underlying empty-separator error. -/
theorem claim_C7_partition (a : lstr) (sep : PyVal) (sepStr : Str)
    (h1 : pyStrLike? sep = some sepStr) (h2 : sepStr ≠ []) :
    ∃ t1 t2 t3 u1 u2 u3 : lstr,
      lstr.partition a sep = some (t1, t2, t3) ∧
      lstr.rpartition a sep = some (u1, u2, u3) ∧
      t1.content ++ t2.content ++ t3.content = a.content ∧
      u1.content ++ u2.content ++ u3.content = a.content ∧
      (occursIn sepStr a.content = true → t2.content = sepStr ∧ u2.content = sepStr) ∧
      (occursIn sepStr a.content = false →
        t1.content = a.content ∧ t2.content = [] ∧ t3.content = [] ∧
        u1.content = [] ∧ u2.content = [] ∧ u3.content = a.content) ∧
      (∀ t ∈ [t1, t2, t3, u1, u2, u3],
        t.origin_trace = a.origin_trace ∪ lstrOrigins sep ∧ t.logits = none) := by
  cases hf : findSub sepStr a.content with
  | none =>
    have hfl : findSubLast sepStr a.content = none :=
      (findSub_none_iff sepStr a.content).mp hf
    refine ⟨⟨a.content, none, partitionOrigins a sep⟩,
      ⟨[], none, partitionOrigins a sep⟩, ⟨[], none, partitionOrigins a sep⟩,
      ⟨[], none, partitionOrigins a sep⟩, ⟨[], none, partitionOrigins a sep⟩,
      ⟨a.content, none, partitionOrigins a sep⟩, ?_, ?_, by simp, by simp, ?_, ?_, ?_⟩
    · simp [lstr.partition, pyPartition, h1, h2, hf]
    · simp [lstr.rpartition, pyRPartition, h1, h2, hfl]
    · intro hocc
      rw [occursIn, hf] at hocc
      exact absurd hocc (by simp)
    · intro _
      exact ⟨rfl, rfl, rfl, rfl, rfl, rfl⟩
    · intro t ht
      have hor := partitionOrigins_eq a sep
      simp only [List.mem_cons, List.not_mem_nil, or_false] at ht
      rcases ht with rfl | rfl | rfl | rfl | rfl | rfl <;> exact ⟨hor, rfl⟩
  | some i =>
    obtain ⟨u, v, huv, hlen⟩ := findSub_some sepStr a.content i hf
    cases hfl : findSubLast sepStr a.content with
    | none =>
      exact absurd ((findSub_none_iff sepStr a.content).mpr hfl) (by simp [hf])
    | some j =>
      obtain ⟨p, q, hpq, hplen⟩ := findSubLast_some sepStr a.content j hfl
      have htake : a.content.take i = u := by
        rw [huv, List.append_assoc]
        exact List.take_left' hlen
      have hdrop : a.content.drop (i + sepStr.length) = v := by
        rw [huv]
        exact List.drop_left' (by rw [List.length_append, hlen])
      have hptake : a.content.take j = p := by
        rw [hpq, List.append_assoc]
        exact List.take_left' hplen
      have hpdrop : a.content.drop (j + sepStr.length) = q := by
        rw [hpq]
        exact List.drop_left' (by rw [List.length_append, hplen])
      refine ⟨⟨a.content.take i, none, partitionOrigins a sep⟩,
        ⟨sepStr, none, partitionOrigins a sep⟩,
        ⟨a.content.drop (i + sepStr.length), none, partitionOrigins a sep⟩,
        ⟨a.content.take j, none, partitionOrigins a sep⟩,
        ⟨sepStr, none, partitionOrigins a sep⟩,
        ⟨a.content.drop (j + sepStr.length), none, partitionOrigins a sep⟩,
        ?_, ?_, ?_, ?_, ?_, ?_, ?_⟩
      · simp [lstr.partition, pyPartition, h1, h2, hf]
      · simp [lstr.rpartition, pyRPartition, h1, h2, hfl]
      · show a.content.take i ++ sepStr ++ a.content.drop (i + sepStr.length) = a.content
        rw [htake, hdrop]
        exact huv.symm
      · show a.content.take j ++ sepStr ++ a.content.drop (j + sepStr.length) = a.content
        rw [hptake, hpdrop]
        exact hpq.symm
      · intro _
        exact ⟨rfl, rfl⟩
      · intro hocc
        rw [occursIn, hf] at hocc
        exact absurd hocc (by simp)
      · intro t ht
        have hor := partitionOrigins_eq a sep
        simp only [List.mem_cons, List.not_mem_nil, or_false] at ht
        rcases ht with rfl | rfl | rfl | rfl | rfl | rfl <;> exact ⟨hor, rfl⟩

/-- Witness for claim C7 (amended) at content "Hello" and plain separator "l". -/
theorem claim_C7_partition_witness :
    ∃ t1 t2 t3 u1 u2 u3 : lstr,
      lstr.partition ⟨S "Hello", none, {"m"}⟩ (.vstr (S "l")) = some (t1, t2, t3) ∧
      lstr.rpartition ⟨S "Hello", none, {"m"}⟩ (.vstr (S "l")) = some (u1, u2, u3) ∧
      t1.content ++ t2.content ++ t3.content =
        (⟨S "Hello", none, {"m"}⟩ : lstr).content ∧
      u1.content ++ u2.content ++ u3.content =
        (⟨S "Hello", none, {"m"}⟩ : lstr).content ∧
      (occursIn (S "l") (⟨S "Hello", none, {"m"}⟩ : lstr).content = true →
        t2.content = S "l" ∧ u2.content = S "l") ∧
      (occursIn (S "l") (⟨S "Hello", none, {"m"}⟩ : lstr).content = false →
        t1.content = (⟨S "Hello", none, {"m"}⟩ : lstr).content ∧ t2.content = [] ∧
        t3.content = [] ∧ u1.content = [] ∧ u2.content = [] ∧
        u3.content = (⟨S "Hello", none, {"m"}⟩ : lstr).content) ∧
      (∀ t ∈ [t1, t2, t3, u1, u2, u3],
        t.origin_trace =
          (⟨S "Hello", none, {"m"}⟩ : lstr).origin_trace ∪ lstrOrigins (.vstr (S "l")) ∧
        t.logits = none) :=
  claim_C7_partition ⟨S "Hello", none, {"m"}⟩ (.vstr (S "l")) (S "l")
    (by decide) (by decide)

/-- Claim C8: %-template substitution over the stringified operands (a single value or a
tuple of values) produces that substitution as content, absent scores, and origins equal
to the receiver's unioned with the origins of every provenance-carrying substitution
argument, with non-provenance arguments contributing nothing. -/
theorem claim_C8_mod (a : lstr) (other : ModArg) (c : Str)
    (h : formatS a.content (modArgStrs other) = some c) :
    lstr.mod a other =
      some ⟨c, none, a.origin_trace ∪ specArgsOrigins (modArgList other)⟩ := by
  cases other with
  | tup vs =>
    simp only [modArgStrs] at h
    simp only [lstr.mod, h, Option.map_some', modArgList]
    rw [accumOrigins_eq]
  | single v =>
    simp only [modArgStrs] at h
    simp only [lstr.mod, h, Option.map_some', modArgList]
    cases v <;> simp [lstrOrigins, specArgsOrigins]

/-- Witness for claim C8 at template "Hi %s" and one provenance-carrying operand. -/
theorem claim_C8_mod_witness :
    lstr.mod ⟨S "Hi %s", none, {"a"}⟩ (.single (.vlstr ⟨S "Bob", none, {"b"}⟩)) =
      some ⟨S "Hi Bob", none,
        (⟨S "Hi %s", none, {"a"}⟩ : lstr).origin_trace ∪
          specArgsOrigins (modArgList (.single (.vlstr ⟨S "Bob", none, {"b"}⟩)))⟩ :=
  claim_C8_mod ⟨S "Hi %s", none, {"a"}⟩ (.single (.vlstr ⟨S "Bob", none, {"b"}⟩))
    (S "Hi Bob") (by decide)
